import Mathlib

/-!
Verification of the asynchronous URL-enrichment engine of the
obsidian-link-autotitle plugin (src/main.ts) against its specification.

The TypeScript source is shallowly embedded: JavaScript `Map` objects become
association lists that preserve insertion order (as JS maps do), JavaScript
strings become `String`/`List Char` (all computation is done on `List Char`
because the built-in byte-position based `String` primitives do not reduce in
the kernel), timestamps and durations are `Nat` milliseconds, and the
asynchronous parts (fetch, the drain loop, the retry timer) become explicit
oracles, state-passing functions and a small-step transition relation.
-/

/-! ## JavaScript Map model

JS `Map` iterates in insertion order; `set` of an existing key updates the
value in place (keeping the key's original position), `set` of a fresh key
appends, `delete` removes the entry, and `keys().next().value` is the first
(oldest-inserted) key.  We model a map as an insertion-ordered association
list. -/
def mget {α : Type} (m : List (String × α)) (k : String) : Option α :=
  match m with
  | [] => none
  | (k2, v) :: rest => if k2 = k then some v else mget rest k

def mset {α : Type} (m : List (String × α)) (k : String) (v : α) :
    List (String × α) :=
  match m with
  | [] => [(k, v)]
  | (k2, v2) :: rest => if k2 = k then (k2, v) :: rest else (k2, v2) :: mset rest k v

def mdelete {α : Type} (m : List (String × α)) (k : String) : List (String × α) :=
  m.filter (fun p => !(p.1 == k))

def mkeys {α : Type} (m : List (String × α)) : List String := m.map Prod.fst

/-! ## Title Cache (src/main.ts, updateCache, lines 361-367)

```ts
private updateCache(url: string, title: string): void {
  if (this.urlCache.size >= this.MAX_CACHE_SIZE) {
    const firstKey = this.urlCache.keys().next().value;
    this.urlCache.delete(firstKey);
  }
  this.urlCache.set(url, title);
}
```
with `MAX_CACHE_SIZE = 1000`. -/
def MAX_CACHE_SIZE : Nat := 1000

def updateCache (cache : List (String × String)) (url title : String) :
    List (String × String) :=
  let cache2 :=
    if MAX_CACHE_SIZE ≤ cache.length then
      match cache.head? with
      | some (k0, _) => mdelete cache k0
      | none => cache
    else cache
  mset cache2 url title

/-- Inserting all key/value pairs of a list into a cache, in order. -/
def fillCache (start : List (String × String)) (l : List (String × String)) :
    List (String × String) :=
  l.foldl (fun c p => updateCache c p.1 p.2) start

/-- Concrete 1001-URL instance for `cache_bound_and_fifo`: URLs are the strings
"", "a", "aa", …, of pairwise-distinct lengths, hence pairwise distinct. -/
def cacheWitnessList : List (String × String) :=
  (List.range 1001).map (fun n => (String.mk (List.replicate n 'a'), "title"))

/-! ## JavaScript string helpers

`isJsWhitespace` is the character class `\s` of JavaScript regular
expressions (also the set removed by `String.prototype.trim`). -/
def isJsWhitespace (c : Char) : Bool :=
  c = '\t' || c = '\n' || c.toNat = 11 || c.toNat = 12 || c = '\r' || c = ' ' ||
  c.toNat = 0xa0 || c.toNat = 0x1680 ||
  (0x2000 ≤ c.toNat && c.toNat ≤ 0x200a) ||
  c.toNat = 0x2028 || c.toNat = 0x2029 || c.toNat = 0x202f ||
  c.toNat = 0x205f || c.toNat = 0x3000 || c.toNat = 0xfeff

def jsTrimList (cs : List Char) : List Char :=
  ((cs.dropWhile isJsWhitespace).reverse.dropWhile isJsWhitespace).reverse

def jsTrim (s : String) : String := String.mk (jsTrimList s.data)

/-- Pattern is an initial segment of the character list. -/
def matchPat : List Char → List Char → Bool
  | [], _ => true
  | _ :: _, [] => false
  | p :: ps, c :: cs => p == c && matchPat ps cs

/-! ## URL Matcher (src/main.ts, findURLsInText, lines 61-79)

```ts
const urlRegex = /(?<!\]\()https?:\/\/[^\s)]+/g;
let match;
while ((match = urlRegex.exec(text)) !== null) {
  matches.push({ url: match[0].trim(), index: match.index });
}
```

The regex is embedded directly: at each index the engine first checks the
negative lookbehind (the two preceding characters must not be `](`), then
matches `https://` or `http://` followed by a non-empty maximal run of
characters that are neither whitespace (`\s`) nor `)`.  On success `exec`
resumes after the match; on failure it advances one character. -/
structure URLMatch where
  url : String
  index : Nat
deriving DecidableEq, Repr

def urlBodyChar (c : Char) : Bool := !(isJsWhitespace c) && !(c == ')')

/-- After the scheme matched, the regex takes the maximal non-empty run of
`[^\s)]` characters. -/
def urlTail (sch : List Char) (cs : List Char) : Option (List Char) :=
  let body := (cs.drop sch.length).takeWhile urlBodyChar
  if body.isEmpty then none else some (sch ++ body)

/-- One attempt of the regex at the current position: `p2`, `p1` are the two
characters before the position (for the lookbehind), `cs` the rest of the
text.  Returns the matched characters. -/
def urlMatchAt (p2 p1 : Option Char) (cs : List Char) : Option (List Char) :=
  if p2 = some ']' && p1 = some '(' then none
  else if matchPat "https://".data cs then urlTail "https://".data cs
  else if matchPat "http://".data cs then urlTail "http://".data cs
  else none

def findScan (fuel : Nat) (p2 p1 : Option Char) (cs : List Char) (i : Nat) :
    List URLMatch :=
  match fuel with
  | 0 => []
  | fuel + 1 =>
    match cs with
    | [] => []
    | c :: rest =>
      match urlMatchAt p2 p1 (c :: rest) with
      | some m =>
        ⟨jsTrim (String.mk m), i⟩ ::
          findScan fuel m.reverse[1]? m.reverse[0]?
            ((c :: rest).drop m.length) (i + m.length)
      | none => findScan fuel p1 (some c) rest (i + 1)

def findURLsInText (text : String) : List URLMatch :=
  findScan (text.data.length + 1) none none text.data 0

/-! ## ProcessingTask and the Orchestrator entry points -/
structure ProcessingTask where
  url : String
  lineNumber : Nat
  position : Nat
  timestamp : Nat
deriving DecidableEq, Repr

/-- Key for submission-time dedup: `${task.url}-${task.lineNumber}` (line 134). -/
def dedupKey (t : ProcessingTask) : String :=
  t.url ++ "-" ++ Nat.repr t.lineNumber

/-- Key for in-flight dedup:
`${task.url}-${task.lineNumber}-${task.position}-${task.timestamp}` (line 142). -/
def inflightKey (t : ProcessingTask) : String :=
  t.url ++ "-" ++ Nat.repr t.lineNumber ++ "-" ++ Nat.repr t.position ++ "-" ++
    Nat.repr t.timestamp

/-- Key used by the Retry Scheduler:
`${task.url}-${task.lineNumber}-${task.position}` (line 349). -/
def retryKey (t : ProcessingTask) : String :=
  t.url ++ "-" ++ Nat.repr t.lineNumber ++ "-" ++ Nat.repr t.position

/-! ## handleChange (src/main.ts, lines 81-106)

The debounced callback reads the cursor line; if it has at most 10 characters
it returns without creating tasks; otherwise every URL occurrence found in the
line becomes a ProcessingTask at the cursor's line number. -/
def handleChangeTasks (currentLine : String) (cursorLine now : Nat) :
    List ProcessingTask :=
  if currentLine.length ≤ 10 then []
  else (findURLsInText currentLine).map
    (fun m => ⟨m.url, cursorLine, m.index, now⟩)

/-! ## Batch dedup in addToProcessingQueue (src/main.ts, lines 129-140)

```ts
const sortedTasks = [...tasks].sort((a, b) => a.position - b.position);
const uniqueTasks = new Map<string, ProcessingTask>();
for (const task of sortedTasks) {
  const key = `${task.url}-${task.lineNumber}`;
  if (!uniqueTasks.has(key)) uniqueTasks.set(key, task);
}
... Array.from(uniqueTasks.values()) ...
```
-/

/-- Comparator `(a, b) => a.position - b.position`. -/
def posLe : ProcessingTask → ProcessingTask → Prop :=
  fun a b => a.position ≤ b.position

instance : DecidableRel posLe := fun a b => Nat.decLe a.position b.position

instance : IsTotal ProcessingTask posLe := ⟨fun a b => Nat.le_total a.position b.position⟩

instance : IsTrans ProcessingTask posLe := ⟨fun _ _ _ => Nat.le_trans⟩

/-- JS `Array.prototype.sort` is a stable sort; insertion sort is its
extensional equivalent here (stability matters only for ties, and the
properties proved below depend only on sortedness and permutation). -/
def sortByPosition (tasks : List ProcessingTask) : List ProcessingTask :=
  tasks.insertionSort posLe

def uniqueLoop (m : List (String × ProcessingTask)) :
    List ProcessingTask → List (String × ProcessingTask)
  | [] => m
  | t :: rest =>
    if (mget m (dedupKey t)).isSome then uniqueLoop m rest
    else uniqueLoop (mset m (dedupKey t) t) rest

/-- The list of tasks addToProcessingQueue turns into processing functions. -/
def dedupTasks (tasks : List ProcessingTask) : List ProcessingTask :=
  (uniqueLoop [] (sortByPosition tasks)).map Prod.snd

/-- Concrete instance for `dedup_keeps_earlier_position`: one batch, two tasks
for the same URL and line at positions 4 and 9; only the position-4 task
survives. -/
def dedupWitnessA : ProcessingTask := ⟨"https://e.org/x", 3, 9, 7⟩

def dedupWitnessB : ProcessingTask := ⟨"https://e.org/x", 3, 4, 7⟩

/-- The text form `[label](target)` of a well-formed markdown link — the
"already-well-formed markdown link span" of the specification. -/
def markdownLinkSpan (label target : String) : String :=
  "[" ++ label ++ "](" ++ target ++ ")"

/-! ## URL model (platform `new URL`, `decodeURIComponent`)

`getTitleFromURL` relies on the host platform's WHATWG `URL` class and on
`decodeURIComponent`.  These are external collaborators (not code of this
repository), modelled here for the inputs the plugin produces: lower-case
`http`/`https` URLs.  Restrictions of the model (documented, not exercised by
the claims): no dot-segment or percent-encoding normalization of the path, no
IPv6 hosts, no port validation, ASCII-only host lower-casing and ASCII-only
case-insensitive regex matching. -/
def lowerChar (c : Char) : Char :=
  if 'A' ≤ c && c ≤ 'Z' then Char.ofNat (c.toNat + 32) else c

structure JsURL where
  hostname : String
  pathname : String
deriving DecidableEq, Repr

/-- JS `String.prototype.split` with a one-character separator (always returns
a non-empty list of groups; `"".split(x) = [""]`). -/
def splitOnChar (sep : Char) (cs : List Char) : List (List Char) :=
  match cs with
  | [] => [[]]
  | c :: rest =>
    let r := splitOnChar sep rest
    if c = sep then [] :: r
    else
      match r with
      | [] => [[c]]
      | g :: gs => (c :: g) :: gs

def parseURL (s : String) : Option JsURL :=
  let cs := s.data
  let after? : Option (List Char) :=
    if matchPat "https://".data cs then some (cs.drop 8)
    else if matchPat "http://".data cs then some (cs.drop 7)
    else none
  match after? with
  | none => none
  | some after =>
    let authority := after.takeWhile
      (fun c => !(c = '/' || c = '?' || c = '#' || c = '\\'))
    if authority = [] then none
    else
      let hostport := ((splitOnChar '@' authority).getLast?).getD authority
      let host := hostport.takeWhile (fun c => !(c = ':'))
      if host = [] then none
      else
        let rest := after.drop authority.length
        let path : List Char :=
          match rest with
          | [] => ['/']
          | c :: _ =>
            if c = '?' ∨ c = '#' then ['/']
            else (rest.takeWhile (fun c => !(c = '?' || c = '#'))).map
              (fun c => if c = '\\' then '/' else c)
        some ⟨String.mk (host.map lowerChar), String.mk path⟩

def hexVal (c : Char) : Option Nat :=
  if '0' ≤ c && c ≤ '9' then some (c.toNat - 48)
  else if 'A' ≤ c && c ≤ 'F' then some (c.toNat - 55)
  else if 'a' ≤ c && c ≤ 'f' then some (c.toNat - 87)
  else none

/-- One `%HH` escape: the byte and the remaining characters. -/
def pctByte : List Char → Option (Nat × List Char)
  | '%' :: h1 :: h2 :: rest =>
    match hexVal h1, hexVal h2 with
    | some a, some b => some (16 * a + b, rest)
    | _, _ => none
  | _ => none

/-- A UTF-8 continuation byte written as a `%HH` escape; returns its payload. -/
def contByte (cs : List Char) : Option (Nat × List Char) :=
  match pctByte cs with
  | some (b, rest) => if 0x80 ≤ b && b ≤ 0xbf then some (b % 64, rest) else none
  | none => none

/-- Decode one escape sequence (one code point) starting at a `%`, enforcing
the UTF-8 well-formedness conditions under which `decodeURIComponent` does not
throw: valid lead bytes, enough continuation bytes, no overlong encodings, no
surrogates, maximum U+10FFFF. -/
def decodeSeq (cs : List Char) : Option (Char × List Char) :=
  match pctByte cs with
  | none => none
  | some (b, rest) =>
    if b < 0x80 then some (Char.ofNat b, rest)
    else if 0xc2 ≤ b && b ≤ 0xdf then
      match contByte rest with
      | some (c1, rest1) => some (Char.ofNat ((b % 32) * 64 + c1), rest1)
      | none => none
    else if 0xe0 ≤ b && b ≤ 0xef then
      match contByte rest with
      | some (c1, rest1) =>
        match contByte rest1 with
        | some (c2, rest2) =>
          let cp := (b % 16) * 4096 + c1 * 64 + c2
          if 0x800 ≤ cp && !(0xd800 ≤ cp && cp ≤ 0xdfff) then
            some (Char.ofNat cp, rest2)
          else none
        | none => none
      | none => none
    else if 0xf0 ≤ b && b ≤ 0xf4 then
      match contByte rest with
      | some (c1, rest1) =>
        match contByte rest1 with
        | some (c2, rest2) =>
          match contByte rest2 with
          | some (c3, rest3) =>
            let cp := (b % 8) * 0x40000 + c1 * 4096 + c2 * 64 + c3
            if 0x10000 ≤ cp && cp ≤ 0x10ffff then
              some (Char.ofNat cp, rest3)
            else none
          | none => none
        | none => none
      | none => none
    else none

def decodeLoop (fuel : Nat) (cs : List Char) : Option (List Char) :=
  match fuel, cs with
  | 0, _ => none
  | _, [] => some []
  | f + 1, c :: rest =>
    if c = '%' then
      match decodeSeq (c :: rest) with
      | none => none
      | some (ch, rest2) =>
        match decodeLoop f rest2 with
        | none => none
        | some out => some (ch :: out)
    else
      match decodeLoop f rest with
      | none => none
      | some out => some (c :: out)

/-- `decodeURIComponent`; `none` models a thrown `URIError`. -/
def decodeURIComponentM (cs : List Char) : Option (List Char) :=
  decodeLoop (cs.length + 1) cs

/-! ## getTitleFromURL (src/main.ts, lines 319-346) -/

/-- Replace `/[-_]/g` by spaces. -/
def sepToSpace (cs : List Char) : List Char :=
  cs.map (fun c => if c = '-' || c = '_' then ' ' else c)

/-- `pathname.split("/").pop() || ""`. -/
def lastSegment (ps : List Char) : List Char :=
  ((splitOnChar '/' ps).getLast?).getD []

/-- `hostname.replace(/^www\./, "")`. -/
def stripWww (h : List Char) : List Char :=
  if matchPat "www.".data h then h.drop 4 else h

def endsWithCI (suf cs : List Char) : Bool :=
  decide (suf.length ≤ cs.length) &&
    matchPat (suf.map lowerChar) ((cs.drop (cs.length - suf.length)).map lowerChar)

/-- `.replace(/\.(html|php|aspx?)$/i, "")`. -/
def stripExt (cs : List Char) : List Char :=
  if endsWithCI ".html".data cs then cs.take (cs.length - 5)
  else if endsWithCI ".aspx".data cs then cs.take (cs.length - 5)
  else if endsWithCI ".php".data cs then cs.take (cs.length - 4)
  else if endsWithCI ".asp".data cs then cs.take (cs.length - 4)
  else cs

/-- `.split(" ").map(w => w.trim()).join(" ").trim()`. -/
def wordsPipeline (cs : List Char) : List Char :=
  jsTrimList (List.intercalate [' '] ((splitOnChar ' ' cs).map jsTrimList))

/--
```ts
private getTitleFromURL(url: string): string {
  try {
    const urlObj = new URL(url);
    let pathTitle = urlObj.pathname.split("/").pop() || "";
    pathTitle = decodeURIComponent(pathTitle).replace(/[-_]/g, " ");
    if (!pathTitle || pathTitle === "/") {
      pathTitle = urlObj.hostname.replace(/^www\./, "");
    }
    pathTitle = pathTitle
      .replace(/\.(html|php|aspx?)$/i, "")
      .replace(/[_-]/g, " ")
      .split(" ").map((word) => word.trim()).join(" ").trim();
    return pathTitle || urlObj.hostname;
  } catch (e) {
    return url;
  }
}
```
A failed `new URL` or a throwing `decodeURIComponent` lands in the catch and
returns the input unchanged. -/
def getTitleFromURL (url : String) : String :=
  match parseURL url with
  | none => url
  | some u =>
    match decodeURIComponentM (lastSegment u.pathname.data) with
    | none => url
    | some dec =>
      let pathTitle1 := sepToSpace dec
      let pathTitle2 :=
        if pathTitle1 = [] ∨ pathTitle1 = ['/'] then stripWww u.hostname.data
        else pathTitle1
      let pathTitle3 := wordsPipeline (sepToSpace (stripExt pathTitle2))
      if pathTitle3 = [] then u.hostname else String.mk pathTitle3

/-! ## Title Resolver (src/main.ts, fetchPageTitleWithRetry, lines 258-317)

The network is abstracted by oracles: `oembed` is the outcome of the
noembed.com lookup, `direct n` the outcome of the direct fetch in loop
attempt `n`.  A rejected promise is `reject`; a fulfilled response carries
`type === "opaque"`, `ok`, and a body read that may itself reject.  The
returned pair is the function's result (`Except.error` models a thrown
exception escaping to the caller) together with the list of backoff waits
performed, in milliseconds.

Control flow of the retry loop (lines 279-313): the inner `try` block spans
the `fetch` call, the `opaque` check, the `ok` check, and the
`await response.text()` body read, so the inner `catch (e)` at line 298
absorbs every rejection; execution then falls through to
`return this.getTitleFromURL(url)` at line 302, which cannot throw (it has
its own try/catch).  The outer `catch (error)` at line 304, the backoff wait,
and the `throw error` are therefore unreachable, as the embedding makes
explicit. -/
structure JsResponse where
  isOpaque : Bool
  ok : Bool
  body : Except Unit String
deriving Repr

inductive FetchResult where
  | reject
  | success (r : JsResponse)

structure OEmbedData where
  title : String
  provider_name : String
deriving Repr

inductive OEmbedResult where
  | reject
  | success (ok : Bool) (json : Except Unit OEmbedData)

def isLineTerm (c : Char) : Bool :=
  c = '\n' || c = '\r' || c.toNat = 0x2028 || c.toNat = 0x2029

def matchPatCI (p cs : List Char) : Bool :=
  matchPat (p.map lowerChar) (cs.map lowerChar)

/-- The lazy group `(.*?)` before `</title>`: the shortest run of
non-line-terminator characters followed by the close tag. -/
def titleGroup (fuel : Nat) (cs : List Char) : Option (List Char) :=
  match fuel with
  | 0 => none
  | f + 1 =>
    if matchPatCI "</title>".data cs then some []
    else
      match cs with
      | [] => none
      | c :: rest =>
        if isLineTerm c then none
        else (titleGroup f rest).map (fun g => c :: g)

/-- `html.match(/<title>(.*?)<\/title>/i)`: first position where `<title>`
matches (case-insensitively) and a close tag follows on the same line. -/
def titleTagSearch (fuel : Nat) (cs : List Char) : Option (List Char) :=
  match fuel with
  | 0 => none
  | f + 1 =>
    match cs with
    | [] => none
    | _ :: rest =>
      if matchPatCI "<title>".data cs then
        match titleGroup (cs.length + 1) (cs.drop 7) with
        | some g => some g
        | none => titleTagSearch f rest
      else titleTagSearch f rest

def titleTagMatch (html : List Char) : Option (List Char) :=
  titleTagSearch (html.length + 1) html

/-- One iteration of the direct-fetch loop body (lines 280-302), up to the
outer catch: `Except.error` would be an exception reaching the outer catch,
which no branch produces. -/
def attemptOnce (url : String) (fr : FetchResult) : Except Unit String :=
  match fr with
  | .reject => .ok (getTitleFromURL url)
  | .success r =>
    if r.isOpaque then .ok (getTitleFromURL url)
    else if r.ok then
      match r.body with
      | .error _ => .ok (getTitleFromURL url)
      | .ok html =>
        match titleTagMatch html.data with
        | some t => .ok (jsTrim (String.mk t))
        | none => .ok (getTitleFromURL url)
    else .ok (getTitleFromURL url)

/-- The `for (attempt = 0; attempt <= retries; attempt++)` loop with the
outer catch: on an exception, rethrow at the last attempt, otherwise wait
`delay * 2 ** attempt` and continue; falling out of the loop returns the bare
URL (line 316).  `fuel` is the number of remaining iterations. -/
def fetchLoop (url : String) (direct : Nat → FetchResult) (retries delay : Nat)
    (attempt fuel : Nat) : Except Unit String × List Nat :=
  match fuel with
  | 0 => (.ok url, [])
  | fuel + 1 =>
    match attemptOnce url (direct attempt) with
    | .ok title => (.ok title, [])
    | .error e =>
      if attempt = retries then (.error e, [])
      else
        let w := delay * 2 ^ attempt
        let r := fetchLoop url direct retries delay (attempt + 1) fuel
        (r.1, w :: r.2)

def FETCH_RETRIES : Nat := 3

def FETCH_DELAY : Nat := 1000

def fetchPageTitleWithRetry (url : String) (oembed : OEmbedResult)
    (direct : Nat → FetchResult) (retries delay : Nat) :
    Except Unit String × List Nat :=
  match oembed with
  | .success true (.ok d) =>
    if d.title ≠ "" ∧ d.provider_name ≠ "" then
      (.ok (d.provider_name ++ " - " ++ d.title), [])
    else fetchLoop url direct retries delay 0 (retries + 1)
  | _ => fetchLoop url direct retries delay 0 (retries + 1)

/-! ## Retry Scheduler (src/main.ts, addToRetryQueue lines 348-359,
processRetryQueue lines 181-202)

```ts
private addToRetryQueue(editor: Editor, task: ProcessingTask) {
  const key = `${task.url}-${task.lineNumber}-${task.position}`;
  const existing = this.retryQueue.get(key);
  if (!existing || existing.retries < 3) {
    this.retryQueue.set(key, {
      task,
      retries: (existing?.retries ?? 0) + 1,
      nextRetry: Date.now() + 2 ** (existing?.retries ?? 0) * 1000,
    });
  }
}
```

A scheduler tick (`processRetryQueue`) snapshots the entries whose
`nextRetry` has elapsed and, for each, runs `processURL`; on success the
entry is deleted; in the `catch` the entry is deleted only when
`item.retries >= 3` — the catch neither increments `retries` nor recomputes
`nextRetry`.  `processRetryQueueFailAll` is one tick in which an editor is
available and resolution throws for every due item. -/
structure RetryQueueItem where
  task : ProcessingTask
  retries : Nat
  nextRetry : Nat
deriving DecidableEq, Repr

def addToRetryQueue (q : List (String × RetryQueueItem)) (task : ProcessingTask)
    (now : Nat) : List (String × RetryQueueItem) :=
  let key := retryKey task
  match mget q key with
  | none => mset q key ⟨task, 0 + 1, now + 2 ^ 0 * 1000⟩
  | some ex =>
    if ex.retries < 3 then
      mset q key ⟨task, ex.retries + 1, now + 2 ^ ex.retries * 1000⟩
    else q

def processRetryQueueFailAll (q : List (String × RetryQueueItem)) (now : Nat) :
    List (String × RetryQueueItem) :=
  q.filter (fun p => !(decide (p.2.nextRetry ≤ now) && decide (3 ≤ p.2.retries)))

def retryWitnessTask : ProcessingTask := ⟨"https://a.b/c", 1, 2, 5⟩

/-! ## processURL (src/main.ts, lines 209-242) and its helpers

```ts
private async processURL(editor, task, key) {
  this.processingUrls.add(key);
  try {
    const currentLine = editor.getLine(task.lineNumber);
    if (!currentLine ||
        currentLine.indexOf(task.url, task.position) !== task.position) {
      return;
    }
    let title: string;
    if (this.urlCache.has(task.url)) {
      const cachedTitle = this.urlCache.get(task.url);
      if (typeof cachedTitle !== "string") throw new Error("Invalid cache entry");
      title = cachedTitle;
    } else {
      title = await this.fetchPageTitleWithRetry(task.url);
      this.updateCache(task.url, title);
    }
    const markdownLink = `[${title}](${task.url})`;
    this.replaceURLWithMarkdown(editor, task, markdownLink);
  } finally {
    this.processingUrls.delete(key);
  }
}
```

The document is a list of lines; `getLine` out of range yields `none`, and the
empty string is falsy (`!currentLine`).  The Title Resolver is abstracted as
an oracle `fetchTitle : String → String` (per C1 it always returns normally);
the returned Bool records whether the resolver was invoked (a network call).
The `typeof cachedTitle !== "string"` check cannot fire in the typed model
(cache values are strings by construction), and the transient
`processingUrls` add/delete pair cancels out within the call, so neither
appears in the state. -/
def matchAtIdx (fuel : Nat) (hay needle : List Char) (i : Nat) : Int :=
  match fuel with
  | 0 => -1
  | f + 1 =>
    if matchPat needle (hay.drop i) then (i : Int)
    else matchAtIdx f hay needle (i + 1)

/-- JS `hay.indexOf(needle, start)`. -/
def jsIndexOfFrom (hay needle : List Char) (start : Nat) : Int :=
  matchAtIdx (hay.length + 1 - min start hay.length) hay needle
    (min start hay.length)

structure ProcState where
  doc : List String
  urlCache : List (String × String)
  retryQueue : List (String × RetryQueueItem)
deriving Repr

/-- Lines 225-235: consult the cache, else resolve and populate the cache.
Returns the title, the new cache, and whether the Title Resolver was
invoked. -/
def resolveTitle (fetchTitle : String → String) (cache : List (String × String))
    (url : String) : String × List (String × String) × Bool :=
  match mget cache url with
  | some t => (t, cache, false)
  | none =>
    let t := fetchTitle url
    (t, updateCache cache url t, true)

/-- replaceURLWithMarkdown (src/main.ts, lines 369-381). -/
def replaceURLWithMarkdown (doc : List String) (t : ProcessingTask)
    (link : String) : List String :=
  match doc.get? t.lineNumber with
  | none => doc
  | some line =>
    if line = "" then doc
    else
      let before := line.data.take t.position
      let after := line.data.drop (t.position + t.url.data.length)
      doc.set t.lineNumber (String.mk (before ++ link.data ++ after))

def processURL (fetchTitle : String → String) (st : ProcState)
    (t : ProcessingTask) : ProcState × Bool :=
  match st.doc.get? t.lineNumber with
  | none => (st, false)
  | some line =>
    if line = "" ∨ jsIndexOfFrom line.data t.url.data t.position ≠ (t.position : Int)
    then (st, false)
    else
      let r := resolveTitle fetchTitle st.urlCache t.url
      let link := "[" ++ r.1 ++ "](" ++ t.url ++ ")"
      ({ st with doc := replaceURLWithMarkdown st.doc t link, urlCache := r.2.1 },
        r.2.2)

/-- The expected URL sits at the expected position: position in range and the
URL an initial segment of the line from there. -/
def containsAt (line url : List Char) (pos : Nat) : Bool :=
  decide (pos + url.length ≤ line.length) && matchPat url (line.drop pos)

/-- A task is stale when its target line is absent or no longer contains
`task.url` starting exactly at `task.position`. -/
def staleTask (st : ProcState) (t : ProcessingTask) : Bool :=
  match st.doc.get? t.lineNumber with
  | none => true
  | some line => !(containsAt line.data t.url.data t.position)

def staleWitnessState : ProcState := ⟨["hello world"], [], []⟩

def staleWitnessTask : ProcessingTask := ⟨"http://a.b", 0, 2, 0⟩

/-! ## Engine interleaving model (C3)

Small-step model of the queue-drain loop and the Retry Scheduler at their
suspension points, over the state the Orchestrator owns.  JS `Set` becomes an
insertion-ordered duplicate-free list.

Faithfulness notes, keyed to src/main.ts:
* `enqueue` is `addToProcessingQueue` (lines 129-161): a batch is deduplicated
  by `dedupTasks` and appended.  Task timestamps are whatever `Date.now()`
  returned at creation; `Date.now()` has millisecond resolution, so two
  batches created within the same millisecond carry equal timestamps — the
  model therefore takes them as inputs.
* `drainSkip`/`drainStart` are one iteration of the single-consumer
  `processQueue` loop (lines 163-179) running a processing function (lines
  140-154): pop the head, check `processingUrls.has(key)` and, when absent,
  enter `processURL`, which adds the key (line 214) — all before the first
  suspension point, hence one atomic step.  `drainInflight = []` encodes that
  the loop `await`s each task before the next (single consumer, guarded by
  `isProcessing`).
* `drainFinishOk`/`drainFinishFail` end the in-flight `processURL` call: the
  `finally` removes the key (line 240); on an error whose message says
  "fetch" the catch hands the task to `addToRetryQueue` (lines 147-152).
* `retryStart` is `processRetryQueue` (lines 181-202) picking a due entry
  while an editor is active: it calls `processURL` directly — without
  consulting `processingUrls` — under the timestamp-less retry key, which
  `processURL` then adds to the set.  `retryInflight = []` encodes that ticks
  are serialized (the next tick is scheduled only after the loop finishes).
* `retryFinishOk` deletes the entry (line 192); `retryFinishFail` is the
  catch: the entry is deleted only when `item.retries >= 3` (lines 194-198).
-/
def sadd (s : List String) (k : String) : List String :=
  if k ∈ s then s else s ++ [k]

def sdel (s : List String) (k : String) : List String :=
  s.filter (fun x => !(x == k))

structure EngState where
  queue : List ProcessingTask
  processingUrls : List String
  retryQueue : List (String × RetryQueueItem)
  drainInflight : List ProcessingTask
  retryInflight : List (String × RetryQueueItem)
deriving DecidableEq, Repr

inductive EngStep : EngState → EngState → Prop where
  | enqueue (s : EngState) (batch : List ProcessingTask) :
      EngStep s ⟨s.queue ++ dedupTasks batch, s.processingUrls, s.retryQueue,
        s.drainInflight, s.retryInflight⟩
  | drainSkip (s : EngState) (t : ProcessingTask) (rest : List ProcessingTask)
      (hq : s.queue = t :: rest) (hd : s.drainInflight = [])
      (hk : inflightKey t ∈ s.processingUrls) :
      EngStep s ⟨rest, s.processingUrls, s.retryQueue, s.drainInflight,
        s.retryInflight⟩
  | drainStart (s : EngState) (t : ProcessingTask) (rest : List ProcessingTask)
      (hq : s.queue = t :: rest) (hd : s.drainInflight = [])
      (hk : inflightKey t ∉ s.processingUrls) :
      EngStep s ⟨rest, sadd s.processingUrls (inflightKey t), s.retryQueue,
        [t], s.retryInflight⟩
  | drainFinishOk (s : EngState) (t : ProcessingTask)
      (hd : s.drainInflight = [t]) :
      EngStep s ⟨s.queue, sdel s.processingUrls (inflightKey t), s.retryQueue,
        [], s.retryInflight⟩
  | drainFinishFail (s : EngState) (t : ProcessingTask) (now : Nat)
      (hd : s.drainInflight = [t]) :
      EngStep s ⟨s.queue, sdel s.processingUrls (inflightKey t),
        addToRetryQueue s.retryQueue t now, [], s.retryInflight⟩
  | retryStart (s : EngState) (k : String) (it : RetryQueueItem) (now : Nat)
      (hr : s.retryInflight = []) (hget : mget s.retryQueue k = some it)
      (hdue : it.nextRetry ≤ now) :
      EngStep s ⟨s.queue, sadd s.processingUrls k, s.retryQueue,
        s.drainInflight, [(k, it)]⟩
  | retryFinishOk (s : EngState) (k : String) (it : RetryQueueItem)
      (hr : s.retryInflight = [(k, it)]) :
      EngStep s ⟨s.queue, sdel s.processingUrls k, mdelete s.retryQueue k,
        s.drainInflight, []⟩
  | retryFinishFail (s : EngState) (k : String) (it : RetryQueueItem)
      (hr : s.retryInflight = [(k, it)]) :
      EngStep s ⟨s.queue, sdel s.processingUrls k,
        if 3 ≤ it.retries then mdelete s.retryQueue k else s.retryQueue,
        s.drainInflight, []⟩

inductive EngReach : EngState → Prop where
  | init : EngReach ⟨[], [], [], [], []⟩
  | step {s s2 : EngState} : EngReach s → EngStep s s2 → EngReach s2

/-- The tasks currently inside a `processURL` invocation, from either path. -/
def inflightTasks (s : EngState) : List ProcessingTask :=
  s.drainInflight ++ s.retryInflight.map (fun p => p.2.task)

def engT : ProcessingTask := ⟨"http://x", 5, 1, 2⟩

def engK4 : String := inflightKey engT

def engK3 : String := retryKey engT

def engItem : RetryQueueItem := ⟨engT, 1, 1000⟩

def engS1 : EngState := ⟨[engT], [], [], [], []⟩

def engS2 : EngState := ⟨[], [engK4], [], [engT], []⟩

def engS3 : EngState := ⟨[], [], [(engK3, engItem)], [], []⟩

def engS4 : EngState := ⟨[engT], [], [(engK3, engItem)], [], []⟩

def engS5 : EngState := ⟨[], [engK4], [(engK3, engItem)], [engT], []⟩

def engS6 : EngState :=
  ⟨[], [engK4, engK3], [(engK3, engItem)], [engT], [(engK3, engItem)]⟩

/-! ## Theorems -/

theorem mkeys_cons {α : Type} (k : String) (v : α) (rest : List (String × α)) :
    mkeys ((k, v) :: rest) = k :: mkeys rest := rfl

theorem mkeys_append {α : Type} (l l2 : List (String × α)) :
    mkeys (l ++ l2) = mkeys l ++ mkeys l2 := by simp [mkeys]

-- Basic association-list lemmas.
theorem mset_length_le {α : Type} (m : List (String × α)) (k : String) (v : α) :
    (mset m k v).length ≤ m.length + 1 := by
  induction m with
  | nil => simp [mset]
  | cons p rest ih =>
    obtain ⟨k2, v2⟩ := p
    by_cases h : k2 = k
    · simp [mset, h]
    · simp only [mset, h, if_false, List.length_cons]
      omega

theorem mset_fresh {α : Type} (m : List (String × α)) (k : String) (v : α)
    (h : k ∉ mkeys m) : mset m k v = m ++ [(k, v)] := by
  induction m with
  | nil => simp [mset]
  | cons p rest ih =>
    obtain ⟨k2, v2⟩ := p
    rw [mkeys_cons, List.mem_cons] at h
    push_neg at h
    simp only [mset, Ne.symm h.1, if_false, List.cons_append, List.cons.injEq,
      true_and]
    exact ih h.2

theorem mget_mset_self {α : Type} (m : List (String × α)) (k : String) (v : α) :
    mget (mset m k v) k = some v := by
  induction m with
  | nil => simp [mset, mget]
  | cons p rest ih =>
    obtain ⟨k2, v2⟩ := p
    by_cases h : k2 = k <;> simp [mset, h, mget, ih]

theorem mdelete_not_mem {α : Type} (l : List (String × α)) (k : String)
    (h : k ∉ mkeys l) : mdelete l k = l := by
  induction l with
  | nil => rfl
  | cons p rest ih =>
    obtain ⟨k2, v2⟩ := p
    rw [mkeys_cons, List.mem_cons] at h
    push_neg at h
    have hne : (!(k2 == k)) = true := by
      simp only [Bool.not_eq_true', beq_eq_false_iff_ne, ne_eq]
      exact Ne.symm h.1
    simp only [mdelete, List.filter_cons, hne, if_true]
    rw [List.cons.injEq]
    exact ⟨rfl, ih h.2⟩

theorem mdelete_cons_self {α : Type} (k0 : String) (v0 : α)
    (rest : List (String × α)) (h : k0 ∉ mkeys rest) :
    mdelete ((k0, v0) :: rest) k0 = rest := by
  have hh : (!((k0, v0).1 == k0)) = false := by simp
  simp only [mdelete, List.filter_cons, hh, if_false]
  exact mdelete_not_mem rest k0 h

theorem mdelete_cons_length {α : Type} (k0 : String) (v0 : α)
    (rest : List (String × α)) :
    (mdelete ((k0, v0) :: rest) k0).length ≤ rest.length := by
  have hh : (!((k0, v0).1 == k0)) = false := by simp
  simp only [mdelete, List.filter_cons, hh, if_false]
  exact List.length_filter_le _ rest

/-- C4, invariant half: one `updateCache` step preserves the size bound. -/
theorem updateCache_length_le (c : List (String × String)) (u t : String)
    (h : c.length ≤ 1000) : (updateCache c u t).length ≤ 1000 := by
  unfold updateCache
  by_cases hge : MAX_CACHE_SIZE ≤ c.length
  · match c, hge with
    | (k0, v0) :: rest, hge =>
      simp only [hge, if_true, List.head?]
      have h1 : (mdelete ((k0, v0) :: rest) k0).length ≤ rest.length :=
        mdelete_cons_length k0 v0 rest
      have h2 := mset_length_le (mdelete ((k0, v0) :: rest) k0) u t
      simp only [List.length_cons] at h
      omega
    | [], hge => simp [MAX_CACHE_SIZE] at hge
  · simp only [hge, if_false]
    have h2 := mset_length_le c u t
    simp only [MAX_CACHE_SIZE] at hge
    omega

/-- Filling a not-yet-full cache with fresh, pairwise-distinct keys appends
them in order without evicting anything. -/
theorem fillCache_fresh (l : List (String × String)) :
    ∀ acc : List (String × String), (mkeys (acc ++ l)).Nodup →
      acc.length + l.length ≤ 1000 → fillCache acc l = acc ++ l := by
  induction l with
  | nil => intro acc _ _; simp [fillCache]
  | cons p rest ih =>
    intro acc hnd hlen
    obtain ⟨u, t⟩ := p
    have hlt : acc.length < 1000 := by
      simp only [List.length_cons] at hlen; omega
    have hfresh : u ∉ mkeys acc := by
      intro hmem
      rw [mkeys_append, List.nodup_append] at hnd
      exact hnd.2.2 hmem (by rw [mkeys_cons]; exact List.mem_cons_self u _)
    have hstep : updateCache acc u t = acc ++ [(u, t)] := by
      unfold updateCache
      have hng : ¬ MAX_CACHE_SIZE ≤ acc.length := by
        simp only [MAX_CACHE_SIZE]; omega
      simp only [hng, if_false]
      exact mset_fresh acc u t hfresh
    have hres : fillCache acc ((u, t) :: rest) = fillCache (acc ++ [(u, t)]) rest := by
      simp [fillCache, hstep]
    rw [hres]
    have hrearr : acc ++ (u, t) :: rest = (acc ++ [(u, t)]) ++ rest := by simp
    rw [hrearr] at hnd
    have hlen2 : (acc ++ [(u, t)]).length + rest.length ≤ 1000 := by
      simp only [List.length_append, List.length_cons, List.length_nil]
      simp only [List.length_cons] at hlen
      omega
    rw [ih (acc ++ [(u, t)]) hnd hlen2]
    simp

/--
C4: the title cache's size never exceeds the fixed capacity 1000 at any
observation point, and eviction is insertion-order (FIFO): starting from an
empty cache, inserting `capacity + 1 = 1001` distinct URLs leaves exactly the
last 1000 of them, in insertion order — i.e. exactly 1000 entries with the
earliest-inserted URL evicted first.
-/
theorem cache_bound_and_fifo :
    (∀ (c : List (String × String)) (u t : String),
        c.length ≤ 1000 → (updateCache c u t).length ≤ 1000) ∧
    (∀ L : List (String × String), L.length = 1001 → (mkeys L).Nodup →
        fillCache [] L = L.drop 1 ∧ (fillCache [] L).length = 1000) := by
  refine ⟨updateCache_length_le, ?_⟩
  intro L hlen hnd
  -- split off the last insertion
  obtain ⟨init, last, rfl⟩ : ∃ init last, L = init ++ [last] := by
    cases h : L.reverse with
    | nil =>
      rw [List.reverse_eq_nil_iff] at h
      rw [h] at hlen
      simp at hlen
    | cons a as =>
      refine ⟨as.reverse, a, ?_⟩
      have h2 := congrArg List.reverse h
      simpa using h2
  obtain ⟨u, t⟩ := last
  have hinitlen : init.length = 1000 := by
    simp only [List.length_append, List.length_cons, List.length_nil] at hlen
    omega
  have hndinit : (mkeys ([] ++ init)).Nodup := by
    rw [List.nil_append]
    rw [mkeys_append, List.nodup_append] at hnd
    exact hnd.1
  have hfill : fillCache [] init = init := by
    have h3 := fillCache_fresh init [] hndinit (by simp; omega)
    simpa using h3
  have hsplit : fillCache [] (init ++ [(u, t)]) = updateCache init u t := by
    unfold fillCache
    rw [List.foldl_append]
    unfold fillCache at hfill
    rw [hfill]
    rfl
  match init, hinitlen, hfill, hsplit, hnd with
  | (k0, v0) :: rest, hinitlen, hfill, hsplit, hnd =>
    rw [mkeys_append, mkeys_cons, List.nodup_append, List.nodup_cons] at hnd
    have hk0 : k0 ∉ mkeys rest := hnd.1.1
    have hufresh : u ∉ mkeys rest := by
      intro hmem
      exact hnd.2.2 (List.mem_cons_of_mem k0 hmem) (by simp [mkeys])
    have hdel : mdelete ((k0, v0) :: rest) k0 = rest :=
      mdelete_cons_self k0 v0 rest hk0
    have hev : updateCache ((k0, v0) :: rest) u t = rest ++ [(u, t)] := by
      unfold updateCache
      have hge : MAX_CACHE_SIZE ≤ ((k0, v0) :: rest).length := by
        simp only [MAX_CACHE_SIZE, List.length_cons]
        simp only [List.length_cons] at hinitlen
        omega
      simp only [hge, if_true, List.head?, hdel]
      exact mset_fresh rest u t hufresh
    refine ⟨?_, ?_⟩
    · rw [hsplit, hev]; simp
    · rw [hsplit, hev]
      simp only [List.length_append, List.length_cons, List.length_nil]
      simp only [List.length_cons] at hinitlen
      omega

theorem cache_bound_and_fifo_witness :
    (([] : List (String × String)).length ≤ 1000 ∧
      (updateCache [] "u" "t").length ≤ 1000) ∧
    (cacheWitnessList.length = 1001 ∧ (mkeys cacheWitnessList).Nodup) ∧
    (fillCache [] cacheWitnessList = cacheWitnessList.drop 1 ∧
      (fillCache [] cacheWitnessList).length = 1000) := by
  have hlen : cacheWitnessList.length = 1001 := by
    simp [cacheWitnessList]
  have hnd : (mkeys cacheWitnessList).Nodup := by
    simp only [cacheWitnessList, mkeys, List.map_map]
    refine List.Nodup.map ?_ (List.nodup_range 1001)
    intro m n hmn
    simp only [Function.comp] at hmn
    have h1 : List.replicate m 'a' = List.replicate n 'a' := congrArg String.data hmn
    have h2 := congrArg List.length h1
    simpa using h2
  exact ⟨⟨by decide, cache_bound_and_fifo.1 [] "u" "t" (by decide)⟩,
    ⟨hlen, hnd⟩, cache_bound_and_fifo.2 cacheWitnessList hlen hnd⟩

-- Association-list lemmas used by the dedup proofs.
theorem mget_mset_ne {α : Type} (m : List (String × α)) (k k2 : String) (v : α)
    (h : k ≠ k2) : mget (mset m k2 v) k = mget m k := by
  induction m with
  | nil => simp [mset, mget, Ne.symm h]
  | cons p rest ih =>
    obtain ⟨k3, v3⟩ := p
    by_cases h3 : k3 = k2
    · subst h3
      simp [mset, mget, Ne.symm h, h]
    · simp only [mset, h3, if_false]
      by_cases h4 : k3 = k
      · simp [mget, h4]
      · simp [mget, h4, ih]

theorem mget_eq_none_iff {α : Type} (m : List (String × α)) (k : String) :
    mget m k = none ↔ k ∉ mkeys m := by
  induction m with
  | nil => simp [mget, mkeys]
  | cons p rest ih =>
    obtain ⟨k2, v2⟩ := p
    rw [mkeys_cons]
    by_cases h : k2 = k
    · subst h; simp [mget]
    · simp [mget, h, ih, Ne.symm h]

theorem mget_mem {α : Type} (m : List (String × α)) (k : String) (v : α)
    (h : mget m k = some v) : (k, v) ∈ m := by
  induction m with
  | nil => simp [mget] at h
  | cons p rest ih =>
    obtain ⟨k2, v2⟩ := p
    by_cases h2 : k2 = k
    · subst h2
      simp only [mget, if_true] at h
      obtain rfl : v2 = v := by simpa using h
      exact List.mem_cons_self _ _
    · simp only [mget, h2, if_false] at h
      exact List.mem_cons_of_mem _ (ih h)

theorem uniqueLoop_isSome {l : List ProcessingTask} :
    ∀ (m : List (String × ProcessingTask)) (k : String),
      (mget m k).isSome → (mget (uniqueLoop m l) k).isSome := by
  induction l with
  | nil => intro m k h; exact h
  | cons t rest ih =>
    intro m k h
    unfold uniqueLoop
    by_cases hk : (mget m (dedupKey t)).isSome
    · simp only [hk, if_true]
      exact ih m k h
    · simp only [hk, if_false]
      refine ih _ k ?_
      by_cases he : k = dedupKey t
      · subst he; rw [mget_mset_self]; rfl
      · rw [mget_mset_ne m k (dedupKey t) t he]; exact h

theorem uniqueLoop_key_present {l : List ProcessingTask} :
    ∀ (m : List (String × ProcessingTask)) (t : ProcessingTask), t ∈ l →
      (mget (uniqueLoop m l) (dedupKey t)).isSome := by
  induction l with
  | nil => intro m t h; simp at h
  | cons t2 rest ih =>
    intro m t h
    unfold uniqueLoop
    by_cases hk : (mget m (dedupKey t2)).isSome
    · simp only [hk, if_true]
      rcases List.mem_cons.mp h with rfl | h2
      · exact uniqueLoop_isSome m (dedupKey t) hk
      · exact ih m t h2
    · simp only [hk, if_false]
      rcases List.mem_cons.mp h with rfl | h2
      · refine uniqueLoop_isSome _ (dedupKey t) ?_
        rw [mget_mset_self]; rfl
      · exact ih _ t h2

/-- Soundness of the first-wins dedup loop over a position-sorted list: every
entry of the resulting map is either inherited from the initial map or is a
batch task that has minimal position among all batch tasks with the same
`(url, lineNumber)` key. -/
theorem uniqueLoop_mem {l : List ProcessingTask} (hs : l.Pairwise posLe) :
    ∀ (m : List (String × ProcessingTask)) (k : String) (v : ProcessingTask),
      (k, v) ∈ uniqueLoop m l → (k, v) ∈ m ∨
        (mget m k = none ∧ dedupKey v = k ∧ v ∈ l ∧
          ∀ u ∈ l, dedupKey u = k → v.position ≤ u.position) := by
  induction l with
  | nil => intro m k v h; exact Or.inl h
  | cons t rest ih =>
    intro m k v h
    rw [List.pairwise_cons] at hs
    unfold uniqueLoop at h
    by_cases hk : (mget m (dedupKey t)).isSome
    · simp only [hk, if_true] at h
      rcases ih hs.2 m k v h with h2 | ⟨hnone, hkey, hmem, hmin⟩
      · exact Or.inl h2
      · refine Or.inr ⟨hnone, hkey, List.mem_cons_of_mem _ hmem, ?_⟩
        intro u hu hku
        rcases List.mem_cons.mp hu with rfl | hu2
        · exfalso
          rw [← hku] at hnone
          rw [hnone] at hk
          simp at hk
        · exact hmin u hu2 hku
    · simp only [hk, if_false] at h
      have hknone : mget m (dedupKey t) = none := by
        cases he : mget m (dedupKey t) with
        | none => rfl
        | some w => rw [he] at hk; simp at hk
      have hfresh : dedupKey t ∉ mkeys m := (mget_eq_none_iff m _).mp hknone
      rcases ih hs.2 _ k v h with h2 | ⟨hnone, hkey, hmem, hmin⟩
      · rw [mset_fresh m (dedupKey t) t hfresh] at h2
        rcases List.mem_append.mp h2 with h3 | h3
        · exact Or.inl h3
        · obtain ⟨rfl, rfl⟩ : k = dedupKey t ∧ v = t := by
            simpa using h3
          refine Or.inr ⟨hknone, rfl, List.mem_cons_self _ _, ?_⟩
          intro u hu _
          rcases List.mem_cons.mp hu with rfl | hu2
          · exact Nat.le_refl _
          · exact hs.1 u hu2
      · have hne : k ≠ dedupKey t := by
          intro he
          rw [he] at hnone
          rw [mget_mset_self] at hnone
          exact Option.some_ne_none t hnone
        rw [mget_mset_ne m k (dedupKey t) t hne] at hnone
        refine Or.inr ⟨hnone, hkey, List.mem_cons_of_mem _ hmem, ?_⟩
        intro u hu hku
        rcases List.mem_cons.mp hu with rfl | hu2
        · exact absurd hku.symm hne
        · exact hmin u hu2 hku

/--
C5: for every batch passed to addToProcessingQueue that contains two tasks
with the same `(url, lineNumber)` dedup key and different positions, the
later-position task does not survive deduplication (it is never turned into a
processing function, hence never executed), and the surviving task for that
key is a batch task whose position is at most the smaller of the two.
-/
theorem dedup_keeps_earlier_position (batch : List ProcessingTask)
    (t1 t2 : ProcessingTask) (h1 : t1 ∈ batch) (h2 : t2 ∈ batch)
    (hkey : dedupKey t1 = dedupKey t2) (hpos : t1.position < t2.position) :
    t2 ∉ dedupTasks batch ∧
    ∃ t0, t0 ∈ dedupTasks batch ∧ t0 ∈ batch ∧ dedupKey t0 = dedupKey t1 ∧
      t0.position ≤ t1.position := by
  have hperm := List.perm_insertionSort posLe batch
  have hs : (sortByPosition batch).Pairwise posLe :=
    List.sorted_insertionSort posLe batch
  have h1s : t1 ∈ sortByPosition batch := hperm.mem_iff.mpr h1
  constructor
  · intro hmem
    unfold dedupTasks at hmem
    obtain ⟨⟨k, v⟩, hin, hv⟩ := List.mem_map.mp hmem
    have hv2 : v = t2 := hv
    rcases uniqueLoop_mem hs [] k v hin with h3 | ⟨_, hkey2, _, hmin⟩
    · simp at h3
    · have hkt : dedupKey t1 = k := by rw [hkey, ← hv2, hkey2]
      have h5 := hmin t1 h1s hkt
      rw [hv2] at h5
      omega
  · have hsome := uniqueLoop_key_present (l := sortByPosition batch) [] t1 h1s
    obtain ⟨t0, ht0⟩ := Option.isSome_iff_exists.mp hsome
    have hmem0 : (dedupKey t1, t0) ∈ uniqueLoop [] (sortByPosition batch) :=
      mget_mem _ _ _ ht0
    rcases uniqueLoop_mem hs [] (dedupKey t1) t0 hmem0 with h3 | ⟨_, hkey0, hmem3, hmin⟩
    · simp at h3
    · exact ⟨t0, List.mem_map.mpr ⟨(dedupKey t1, t0), hmem0, rfl⟩,
        hperm.mem_iff.mp hmem3, hkey0, hmin t1 h1s rfl⟩

theorem dedup_keeps_earlier_position_witness :
    (dedupWitnessB ∈ [dedupWitnessA, dedupWitnessB] ∧
      dedupWitnessA ∈ [dedupWitnessA, dedupWitnessB] ∧
      dedupKey dedupWitnessB = dedupKey dedupWitnessA ∧
      dedupWitnessB.position < dedupWitnessA.position) ∧
    (dedupWitnessA ∉ dedupTasks [dedupWitnessA, dedupWitnessB] ∧
      ∃ t0, t0 ∈ dedupTasks [dedupWitnessA, dedupWitnessB] ∧
        t0 ∈ [dedupWitnessA, dedupWitnessB] ∧
        dedupKey t0 = dedupKey dedupWitnessB ∧
        t0.position ≤ dedupWitnessB.position) ∧
    dedupTasks [dedupWitnessA, dedupWitnessB] = [dedupWitnessB] :=
  ⟨⟨by decide, by decide, by decide, by decide⟩,
    dedup_keeps_earlier_position [dedupWitnessA, dedupWitnessB]
      dedupWitnessB dedupWitnessA (by decide) (by decide) (by decide) (by decide),
    by decide⟩

-- Matcher lemmas.
theorem matchPat_append (p : List Char) :
    ∀ cs : List Char, matchPat p cs = true → ∃ r, cs = p ++ r := by
  induction p with
  | nil => intro cs _; exact ⟨cs, rfl⟩
  | cons a ps ih =>
    intro cs h
    cases cs with
    | nil => simp [matchPat] at h
    | cons c rest =>
      simp only [matchPat, Bool.and_eq_true, beq_iff_eq] at h
      obtain ⟨rfl, h2⟩ := h
      obtain ⟨r, rfl⟩ := ih rest h2
      exact ⟨r, rfl⟩

/-- A successful run of `urlTail` produced at least two characters matching an
initial segment of the remaining text. -/
theorem urlTail_spec (sch cs m : List Char) (hs : 2 ≤ sch.length)
    (hmp : matchPat sch cs = true) (h : urlTail sch cs = some m) :
    2 ≤ m.length ∧ ∃ r, cs = m ++ r := by
  unfold urlTail at h
  by_cases hb : ((cs.drop sch.length).takeWhile urlBodyChar).isEmpty = true
  · rw [if_pos hb] at h
    exact absurd h (by simp)
  · rw [if_neg hb] at h
    obtain rfl : _ = m := (Option.some_inj.mp h)
    obtain ⟨r2, hr2⟩ := matchPat_append sch cs hmp
    constructor
    · simp only [List.length_append]
      omega
    · refine ⟨(cs.drop sch.length).dropWhile urlBodyChar, ?_⟩
      conv_lhs => rw [hr2]
      rw [List.append_assoc]
      congr 1
      have hdrop : cs.drop sch.length = r2 := by
        rw [hr2]; exact List.drop_left _ _
      rw [hdrop]
      exact (List.takeWhile_append_dropWhile (p := urlBodyChar) (l := r2)).symm

/-- A successful regex attempt passed its lookbehind, matched at least two
characters, and matched an initial segment of the remaining text. -/
theorem urlMatchAt_spec (p2 p1 : Option Char) (cs m : List Char)
    (h : urlMatchAt p2 p1 cs = some m) :
    ¬(p2 = some ']' ∧ p1 = some '(') ∧ 2 ≤ m.length ∧ ∃ r, cs = m ++ r := by
  unfold urlMatchAt at h
  by_cases hlb : (p2 = some ']' && p1 = some '(') = true
  · rw [if_pos hlb] at h
    exact absurd h (by simp)
  · rw [if_neg hlb] at h
    refine ⟨by simpa using hlb, ?_⟩
    by_cases h8 : matchPat "https://".data cs = true
    · rw [if_pos h8] at h
      exact urlTail_spec _ cs m (by decide) h8 h
    · rw [if_neg h8] at h
      by_cases h7 : matchPat "http://".data cs = true
      · rw [if_pos h7] at h
        exact urlTail_spec _ cs m (by decide) h7 h
      · rw [if_neg h7] at h
        exact absurd h (by simp)

/-- Scan soundness: every emitted occurrence was emitted at a position whose
lookbehind check passed, i.e. the two text characters before the reported
index are never `](`. -/
theorem findScan_sound (fuel : Nat) :
    ∀ (pre cs : List Char) (mt : URLMatch),
      mt ∈ findScan fuel pre.reverse[1]? pre.reverse[0]? cs pre.length →
      2 ≤ mt.index →
      ¬((pre ++ cs)[mt.index - 2]? = some ']' ∧
        (pre ++ cs)[mt.index - 1]? = some '(') := by
  induction fuel with
  | zero => intro pre cs mt h _; simp [findScan] at h
  | succ fuel ih =>
    intro pre cs mt h hidx
    match cs with
    | [] => simp [findScan] at h
    | c :: rest =>
      rw [findScan] at h
      cases hm : urlMatchAt pre.reverse[1]? pre.reverse[0]? (c :: rest) with
      | some m =>
        rw [hm] at h
        obtain ⟨hlb, hlen2, r, hr⟩ := urlMatchAt_spec _ _ _ _ hm
        rcases List.mem_cons.mp h with rfl | htail
        · -- the occurrence emitted here: index = pre.length
          simp only at hidx ⊢
          intro ⟨hc2, hc1⟩
          apply hlb
          constructor
          · rw [← hc2]
            rw [List.getElem?_append,
              if_pos (show pre.length - 2 < pre.length by omega)]
            rw [List.getElem?_reverse (by omega)]
            congr 1
          · rw [← hc1]
            rw [List.getElem?_append,
              if_pos (show pre.length - 1 < pre.length by omega)]
            rw [List.getElem?_reverse (by omega)]
            congr 1
        · -- an occurrence found after the match: use the IH at pre ++ m
          have hdrop : (c :: rest).drop m.length = r := by
            rw [hr]; exact List.drop_left _ _
          have hrev1 : (pre ++ m).reverse[1]? = m.reverse[1]? := by
            rw [List.reverse_append, List.getElem?_append,
              if_pos (show (1 : Nat) < m.reverse.length by
                rw [List.length_reverse]; omega)]
          have hrev0 : (pre ++ m).reverse[0]? = m.reverse[0]? := by
            rw [List.reverse_append, List.getElem?_append,
              if_pos (show (0 : Nat) < m.reverse.length by
                rw [List.length_reverse]; omega)]
          have hlen : (pre ++ m).length = pre.length + m.length := by
            simp
          have htail2 : mt ∈ findScan fuel (pre ++ m).reverse[1]?
              (pre ++ m).reverse[0]? r (pre ++ m).length := by
            rw [hrev1, hrev0, hlen, ← hdrop]
            exact htail
          have h3 := ih (pre ++ m) r mt htail2 hidx
          have hfull : (pre ++ m) ++ r = pre ++ c :: rest := by
            rw [List.append_assoc, ← hr]
          rw [hfull] at h3
          exact h3
      | none =>
        rw [hm] at h
        have hrev1 : (pre ++ [c]).reverse[1]? = pre.reverse[0]? := by
          simp [List.reverse_append]
        have hrev0 : (pre ++ [c]).reverse[0]? = some c := by
          simp [List.reverse_append]
        have hlen : (pre ++ [c]).length = pre.length + 1 := by simp
        have htail2 : mt ∈ findScan fuel (pre ++ [c]).reverse[1]?
            (pre ++ [c]).reverse[0]? rest (pre ++ [c]).length := by
          rw [hrev1, hrev0, hlen]
          exact h
        have h3 := ih (pre ++ [c]) rest mt htail2 hidx
        have hfull : (pre ++ [c]) ++ rest = pre ++ c :: rest := by simp
        rw [hfull] at h3
        exact h3

/--
C6 counterexample: the claim says a URL lying inside a well-formed markdown
link span is never reported.  In `[x](https://a.com/?u=http://b.c)` the link
target is a well-formed span (no whitespace, no `)`), the substring
`http://b.c` at index 21 lies entirely inside that target (which occupies
indices 4–30), and `findURLsInText` does report it: the negative lookbehind
only suppresses a match whose start is immediately preceded by `](`.
-/
theorem find_urls_link_span_counterexample :
    markdownLinkSpan "x" "https://a.com/?u=http://b.c" =
      "[x](https://a.com/?u=http://b.c)" ∧
    "https://a.com/?u=http://b.c".data.all urlBodyChar = true ∧
    findURLsInText "[x](https://a.com/?u=http://b.c)" = [⟨"http://b.c", 21⟩] ∧
    ("[x](https://a.com/?u=http://b.c)".data.drop 21).take 10 = "http://b.c".data ∧
    4 ≤ 21 ∧
    21 + "http://b.c".data.length = 4 + "https://a.com/?u=http://b.c".data.length :=
  ⟨by decide, by decide, by decide, by decide, by decide, by decide⟩

/--
C6 (amended): the matcher suppresses exactly those matches whose start index
is immediately preceded by the two characters `](` — every reported occurrence
violates that lookbehind, so a URL that begins a markdown link's target is
never reported (second conjunct), while an unlinked URL is reported at its
start offset (third and fourth conjuncts).  A URL beginning elsewhere inside
a link span (e.g. embedded in the target's query string) is still reported,
per the counterexample.
-/
theorem find_urls_lookbehind_amended :
    (∀ (text : String) (mt : URLMatch), mt ∈ findURLsInText text →
        2 ≤ mt.index →
        ¬(text.data[mt.index - 2]? = some ']' ∧
          text.data[mt.index - 1]? = some '(')) ∧
    findURLsInText (markdownLinkSpan "label" "https://a.com/path") = [] ∧
    findURLsInText "see https://a.b more" = [⟨"https://a.b", 4⟩] ∧
    findURLsInText "http://x.y and http://z.w" =
      [⟨"http://x.y", 0⟩, ⟨"http://z.w", 15⟩] := by
  refine ⟨?_, by decide, by decide, by decide⟩
  intro text mt h hidx
  have h2 : mt ∈ findScan (text.data.length + 1)
      (List.reverse ([] : List Char))[1]? (List.reverse ([] : List Char))[0]?
      text.data (List.length ([] : List Char)) := h
  have h0 := findScan_sound (text.data.length + 1) [] text.data mt h2 hidx
  simpa using h0

theorem find_urls_lookbehind_amended_witness :
    (⟨"https://a.b", 4⟩ : URLMatch) ∈ findURLsInText "see https://a.b more" ∧
    2 ≤ 4 ∧
    ¬(("see https://a.b more").data[4 - 2]? = some ']' ∧
      ("see https://a.b more").data[4 - 1]? = some '(') :=
  ⟨by decide, by decide,
    find_urls_lookbehind_amended.1 "see https://a.b more" ⟨"https://a.b", 4⟩
      (by decide) (by decide)⟩

/--
C10: if the cursor line at debounce time has length at most 10 characters,
handleChange creates no tasks (the `currentLine.length <= 10` early return),
even though a 10-character line can hold a URL the matcher would report, such
as `http://a.b`.
-/
theorem handleChange_short_line_no_tasks :
    (∀ (line : String) (cursorLine now : Nat), line.length ≤ 10 →
        handleChangeTasks line cursorLine now = []) ∧
    findURLsInText "http://a.b" = [⟨"http://a.b", 0⟩] ∧
    ("http://a.b").length = 10 := by
  refine ⟨?_, by decide, by decide⟩
  intro line cl now h
  unfold handleChangeTasks
  rw [if_pos h]

theorem handleChange_short_line_no_tasks_witness :
    ("http://a.b").length ≤ 10 ∧ handleChangeTasks "http://a.b" 5 99 = [] :=
  ⟨by decide, handleChange_short_line_no_tasks.1 "http://a.b" 5 99 (by decide)⟩

/--
C7: the URL-derived fallback title.  `getTitleFromURL` takes the last path
segment, percent-decodes it, replaces `-`/`_` separators with spaces,
substitutes the hostname minus a leading `www.` when the segment is empty or
the path is root, strips the common extensions `.html`/`.php`/`.asp`/`.aspx`
case-insensitively, normalizes word spacing, and returns the cleaned text —
or the raw hostname when cleaning produced the empty string, or the original
input when it does not parse as a URL (or percent-decoding throws).  In
particular `https://example.org/My_Report.html` yields `"My Report"` and
`https://example.org/` yields `"example.org"`.
-/
theorem getTitleFromURL_fallback :
    getTitleFromURL "https://example.org/My_Report.html" = "My Report" ∧
    getTitleFromURL "https://example.org/" = "example.org" ∧
    getTitleFromURL "https://example.org/My%20Report.html" = "My Report" ∧
    getTitleFromURL "https://www.example.org/" = "example.org" ∧
    getTitleFromURL "https://e.org/docs/a-b.php" = "a b" ∧
    (∀ s : String, parseURL s = none → getTitleFromURL s = s) := by
  refine ⟨by decide, by decide, by decide, by decide, by decide, ?_⟩
  intro s h
  unfold getTitleFromURL
  rw [h]

theorem getTitleFromURL_fallback_witness :
    parseURL "My_Report.html" = none ∧
    getTitleFromURL "My_Report.html" = "My_Report.html" :=
  ⟨by decide, getTitleFromURL_fallback.2.2.2.2.2 "My_Report.html" (by decide)⟩

/--
C1: the claim says that when the oEmbed tier fails and every direct-fetch
attempt rejects with a genuine transient error, each failed attempt is
followed by a backoff wait of `delay * 2^attempt` ms and the function finally
throws.  The code does neither: the inner catch at line 298 absorbs the
rejection and the attempt returns the URL-derived fallback title immediately,
so with every fetch rejecting the function returns `Except.ok` of the
fallback on attempt 0, performs no backoff wait, and never throws.  At the
claimed failing input `https://example.org/My_Report.html` the result is
`(.ok "My Report", [])` — no waits, no thrown error.
-/
theorem fetch_retry_swallows_transient_errors :
    (∀ url : String,
      fetchPageTitleWithRetry url .reject (fun _ => .reject)
        FETCH_RETRIES FETCH_DELAY = (.ok (getTitleFromURL url), [])) ∧
    fetchPageTitleWithRetry "https://example.org/My_Report.html" .reject
        (fun _ => .reject) FETCH_RETRIES FETCH_DELAY = (.ok "My Report", []) := by
  constructor
  · intro url
    rfl
  · rfl

/--
C2 counterexample: the claim says a task whose resolution raises a transient
error on every attempt is held through exactly 3 retries and then dropped,
with successive `nextRetry` values `now + 2^n * 1000` for `n = 0, 1, 2`.  In
the code, the scheduler's catch never increments `retries` and never calls
`addToRetryQueue`, so after the single `addToRetryQueue` call from the drain
path (retries = 1, nextRetry = now + 2^0 * 1000) ten consecutive failing
ticks — each well past `nextRetry` — leave the entry exactly as it was:
it still has `retries = 1`, its `nextRetry` never takes the `n = 1, 2`
values, and it is never dropped.
-/
theorem retry_cap_counterexample :
    (fun q => processRetryQueueFailAll q 1000000)^[10]
        (addToRetryQueue [] retryWitnessTask 100) =
      addToRetryQueue [] retryWitnessTask 100 ∧
    mget (addToRetryQueue [] retryWitnessTask 100) (retryKey retryWitnessTask) =
      some ⟨retryWitnessTask, 1, 1100⟩ ∧
    1100 ≤ 1000000 := by
  refine ⟨by decide, by decide, by decide⟩

-- mget after filtering, for queues with distinct keys.
theorem mget_filter_none {α : Type} (q : List (String × α)) (p : String × α → Bool)
    (k : String) (h : mget q k = none) : mget (q.filter p) k = none := by
  induction q with
  | nil => rfl
  | cons pr rest ih =>
    obtain ⟨k2, v2⟩ := pr
    by_cases h2 : k2 = k
    · subst h2
      simp [mget] at h
    · simp only [mget, h2, if_false] at h
      simp only [List.filter_cons]
      cases hp : p (k2, v2)
      · exact ih h
      · simp only [if_true]
        simp only [mget, h2, if_false]
        exact ih h

theorem mget_filter {α : Type} (q : List (String × α)) (p : String × α → Bool)
    (k : String) (it : α) (hget : mget q k = some it)
    (hnd : (mkeys q).Nodup) :
    mget (q.filter p) k = if p (k, it) then some it else none := by
  induction q with
  | nil => simp [mget] at hget
  | cons pr rest ih =>
    obtain ⟨k2, v2⟩ := pr
    rw [mkeys_cons, List.nodup_cons] at hnd
    by_cases h2 : k2 = k
    · subst h2
      simp only [mget, if_true] at hget
      have heq : v2 = it := by simpa using hget
      have hrest : mget rest k2 = none := (mget_eq_none_iff rest k2).mpr hnd.1
      simp only [List.filter_cons]
      rw [heq]
      cases hp : p (k2, it) with
      | false => simp [hp, mget_filter_none rest p k2 hrest]
      | true => simp [hp, mget]
    · simp only [mget, h2, if_false] at hget
      simp only [List.filter_cons]
      cases hp : p (k2, v2) with
      | false =>
        rw [if_neg (by simp [hp])]
        exact ih hget hnd.2
      | true =>
        rw [if_pos (by simp [hp])]
        simp only [mget, h2, if_false]
        exact ih hget hnd.2

/--
C2 (amended): `addToRetryQueue` itself behaves as claimed — four successive
calls for the same task produce entries with `retries = 1, 2, 3` and
`nextRetry = now + 2^n * 1000` for `n = 0, 1, 2`, and once `retries` has
reached 3 a further call changes nothing.  A failing scheduler tick, however,
only deletes a due entry whose `retries` is already at least 3 and leaves
every other entry untouched (it neither increments `retries` nor recomputes
`nextRetry`), so the exactly-3-then-drop behaviour occurs only if every
failure re-enters through `addToRetryQueue` (the drain path); a task failing
only on scheduler ticks after a single `addToRetryQueue` call is retried
indefinitely, per the counterexample.
-/
theorem retry_cap_amended :
    (∀ (t : ProcessingTask) (n1 n2 n3 n4 : Nat),
      mget (addToRetryQueue [] t n1) (retryKey t) =
        some ⟨t, 1, n1 + 2 ^ 0 * 1000⟩ ∧
      mget (addToRetryQueue (addToRetryQueue [] t n1) t n2) (retryKey t) =
        some ⟨t, 2, n2 + 2 ^ 1 * 1000⟩ ∧
      mget (addToRetryQueue (addToRetryQueue (addToRetryQueue [] t n1) t n2)
          t n3) (retryKey t) = some ⟨t, 3, n3 + 2 ^ 2 * 1000⟩ ∧
      addToRetryQueue (addToRetryQueue (addToRetryQueue (addToRetryQueue [] t n1)
          t n2) t n3) t n4 =
        addToRetryQueue (addToRetryQueue (addToRetryQueue [] t n1) t n2) t n3) ∧
    (∀ (q : List (String × RetryQueueItem)) (now : Nat) (k : String)
        (it : RetryQueueItem), mget q k = some it → (mkeys q).Nodup →
      mget (processRetryQueueFailAll q now) k =
        if it.nextRetry ≤ now ∧ 3 ≤ it.retries then none else some it) := by
  constructor
  · intro t n1 n2 n3 n4
    have h1 : addToRetryQueue [] t n1 =
        [(retryKey t, ⟨t, 1, n1 + 2 ^ 0 * 1000⟩)] := by
      simp [addToRetryQueue, mget, mset]
    have g1 : mget (addToRetryQueue [] t n1) (retryKey t) =
        some ⟨t, 1, n1 + 2 ^ 0 * 1000⟩ := by
      rw [h1]; simp [mget]
    have h2 : addToRetryQueue (addToRetryQueue [] t n1) t n2 =
        [(retryKey t, ⟨t, 2, n2 + 2 ^ 1 * 1000⟩)] := by
      rw [h1]
      simp [addToRetryQueue, mget, mset]
    have g2 : mget (addToRetryQueue (addToRetryQueue [] t n1) t n2) (retryKey t) =
        some ⟨t, 2, n2 + 2 ^ 1 * 1000⟩ := by
      rw [h2]; simp [mget]
    have h3 : addToRetryQueue (addToRetryQueue (addToRetryQueue [] t n1) t n2)
        t n3 = [(retryKey t, ⟨t, 3, n3 + 2 ^ 2 * 1000⟩)] := by
      rw [h2]
      simp [addToRetryQueue, mget, mset]
    have g3 : mget (addToRetryQueue (addToRetryQueue (addToRetryQueue [] t n1)
        t n2) t n3) (retryKey t) = some ⟨t, 3, n3 + 2 ^ 2 * 1000⟩ := by
      rw [h3]; simp [mget]
    refine ⟨g1, g2, g3, ?_⟩
    conv_lhs => rw [h3]
    rw [h3]
    simp [addToRetryQueue, mget]
  · intro q now k it hget hnd
    have h := mget_filter q
      (fun p => !(decide (p.2.nextRetry ≤ now) && decide (3 ≤ p.2.retries)))
      k it hget hnd
    rw [processRetryQueueFailAll, h]
    by_cases hc : it.nextRetry ≤ now ∧ 3 ≤ it.retries
    · simp [hc.1, hc.2]
    · rw [if_neg hc]
      rw [if_pos]
      simp only [Bool.not_eq_true', Bool.and_eq_false_iff, decide_eq_false_iff_not]
      omega

theorem retry_cap_amended_witness :
    (mget [(retryKey retryWitnessTask,
        (⟨retryWitnessTask, 3, 50⟩ : RetryQueueItem))] (retryKey retryWitnessTask) =
      some ⟨retryWitnessTask, 3, 50⟩ ∧
     (mkeys [(retryKey retryWitnessTask,
        (⟨retryWitnessTask, 3, 50⟩ : RetryQueueItem))]).Nodup) ∧
    mget (processRetryQueueFailAll
        [(retryKey retryWitnessTask, ⟨retryWitnessTask, 3, 50⟩)] 100)
      (retryKey retryWitnessTask) = none := by
  have h := retry_cap_amended.2
    [(retryKey retryWitnessTask, ⟨retryWitnessTask, 3, 50⟩)] 100
    (retryKey retryWitnessTask) ⟨retryWitnessTask, 3, 50⟩ (by decide) (by decide)
  refine ⟨⟨by decide, by decide⟩, ?_⟩
  rw [h]
  decide

-- indexOf bridging lemmas.
theorem matchPat_length (p : List Char) :
    ∀ cs : List Char, matchPat p cs = true → p.length ≤ cs.length := by
  induction p with
  | nil => intro cs _; simp
  | cons a ps ih =>
    intro cs h
    cases cs with
    | nil => simp [matchPat] at h
    | cons c rest =>
      simp only [matchPat, Bool.and_eq_true] at h
      have := ih rest h.2
      simp only [List.length_cons]
      omega

theorem matchAtIdx_ge (hay needle : List Char) :
    ∀ (fuel i : Nat), matchAtIdx fuel hay needle i = -1 ∨
      (i : Int) ≤ matchAtIdx fuel hay needle i := by
  intro fuel
  induction fuel with
  | zero => intro i; exact Or.inl rfl
  | succ f ih =>
    intro i
    unfold matchAtIdx
    by_cases h : matchPat needle (hay.drop i) = true
    · rw [if_pos h]
      exact Or.inr (le_refl _)
    · rw [if_neg h]
      rcases ih (i + 1) with h2 | h2
      · exact Or.inl h2
      · refine Or.inr (le_trans ?_ h2)
        exact_mod_cast Nat.le_succ i

theorem jsIndexOf_eq_pos_iff (line url : List Char) (pos : Nat) :
    jsIndexOfFrom line url pos = (pos : Int) ↔ containsAt line url pos = true := by
  unfold jsIndexOfFrom containsAt
  by_cases hle : pos ≤ line.length
  · rw [min_eq_left hle]
    have hfuel : line.length + 1 - pos = (line.length - pos) + 1 := by omega
    rw [hfuel]
    unfold matchAtIdx
    by_cases hm : matchPat url (line.drop pos) = true
    · rw [if_pos hm]
      have hlen := matchPat_length url (line.drop pos) hm
      rw [List.length_drop] at hlen
      simp [hm]
      omega
    · rw [if_neg hm]
      simp only [hm, Bool.and_false, Bool.false_eq_true, iff_false]
      intro hcontra
      rcases matchAtIdx_ge line url (line.length - pos) (pos + 1) with h2 | h2
      · rw [hcontra] at h2
        omega
      · rw [hcontra] at h2
        have : pos + 1 ≤ pos := by exact_mod_cast h2
        omega
  · rw [min_eq_right (by omega : line.length ≤ pos)]
    have hfuel : line.length + 1 - line.length = 1 := by omega
    rw [hfuel]
    unfold matchAtIdx
    constructor
    · intro h
      by_cases hm : matchPat url (line.drop line.length) = true
      · rw [if_pos hm] at h
        have : line.length = pos := by exact_mod_cast h
        omega
      · rw [if_neg hm] at h
        unfold matchAtIdx at h
        exact absurd h (by
          intro hc
          have : (-1 : Int) = (pos : Int) := hc
          omega)
    · intro h
      simp only [Bool.and_eq_true, decide_eq_true_eq] at h
      have hul : url.length = 0 := by omega
      omega

/--
C9: for every task whose target line, at execution time, is absent or no
longer contains `task.url` starting exactly at `task.position`, processURL
returns without modifying the document, the cache, or the retry queue — the
task is silently abandoned (and the caller's catch is not reached, so it is
neither logged as an error nor handed to the retry queue).
-/
theorem processURL_stale_abandons (fetchTitle : String → String)
    (st : ProcState) (t : ProcessingTask) (h : staleTask st t = true) :
    processURL fetchTitle st t = (st, false) := by
  unfold staleTask at h
  cases hline : st.doc.get? t.lineNumber with
  | none =>
    unfold processURL
    rw [hline]
  | some line =>
    rw [hline] at h
    simp only [Bool.not_eq_true'] at h
    have hidx : jsIndexOfFrom line.data t.url.data t.position ≠ (t.position : Int) := by
      intro hc
      rw [(jsIndexOf_eq_pos_iff line.data t.url.data t.position).mp hc] at h
      simp at h
    unfold processURL
    rw [hline]
    exact if_pos (Or.inr hidx)

theorem processURL_stale_abandons_witness :
    staleTask staleWitnessState staleWitnessTask = true ∧
    processURL (fun _ => "Title") staleWitnessState staleWitnessTask =
      (staleWitnessState, false) :=
  ⟨by decide,
    processURL_stale_abandons (fun _ => "Title") staleWitnessState
      staleWitnessTask (by decide)⟩

theorem mget_updateCache_self (c : List (String × String)) (u t : String) :
    mget (updateCache c u t) u = some t := by
  unfold updateCache
  exact mget_mset_self _ u t

/--
C8: resolving the same URL twice through the per-task pipeline's title step
(lines 225-235) while the cache entry persists returns the identical title
both times, and the second resolution performs no network call — it is served
from the cache instead of invoking the Title Resolver.
-/
theorem resolve_twice_cached (fetchTitle : String → String)
    (cache : List (String × String)) (url : String) :
    (resolveTitle fetchTitle
        (resolveTitle fetchTitle cache url).2.1 url).1 =
      (resolveTitle fetchTitle cache url).1 ∧
    (resolveTitle fetchTitle
        (resolveTitle fetchTitle cache url).2.1 url).2.2 = false := by
  unfold resolveTitle
  cases hc : mget cache url with
  | some t => simp [hc]
  | none => simp [hc, mget_updateCache_self]

/--
C3 counterexample: a reachable state with two concurrent `processURL`
invocations for the same in-flight-dedup key (url, lineNumber, position,
timestamp).  Trace: the task `engT` is enqueued and drained; its resolution
fails with a transient signal, placing it in the retry queue under the
timestamp-less retry key; a second batch created in the same millisecond
enqueues an identical task, which the drain starts (its 4-part in-flight key
is in nobody's way); a retry tick then starts the queued item directly —
`processRetryQueue` never consults `processingUrls` — so both resolutions run
concurrently for the identical task tuple.
-/
theorem inflight_dedup_counterexample :
    EngReach engS6 ∧ inflightTasks engS6 = [engT, engT] := by
  constructor
  · have r1 : EngReach engS1 :=
      EngReach.step EngReach.init (EngStep.enqueue ⟨[], [], [], [], []⟩ [engT])
    have r2 : EngReach engS2 :=
      EngReach.step r1 (EngStep.drainStart engS1 engT [] rfl rfl (by decide))
    have r3 : EngReach engS3 :=
      EngReach.step r2 (EngStep.drainFinishFail engS2 engT 0 rfl)
    have r4 : EngReach engS4 :=
      EngReach.step r3 (EngStep.enqueue engS3 [engT])
    have r5 : EngReach engS5 :=
      EngReach.step r4 (EngStep.drainStart engS4 engT [] rfl rfl (by decide))
    exact EngReach.step r5
      (EngStep.retryStart engS5 engK3 engItem 2000 rfl (by decide) (by decide))
  · decide

/--
C3 (amended): each producer path is internally serialized — in every
reachable state at most one drain-path resolution and at most one retry-path
resolution are in flight (so at most one resolution per in-flight-dedup key
within each path, and at most two overall).  The global at-most-one-per-key
property fails only across the two paths: the retry scheduler enters
processURL without consulting processingUrls, so a retry-path resolution can
run concurrently with a drain-path resolution of the same
(url, lineNumber, position, timestamp), per the counterexample.
-/
theorem inflight_per_path_amended (s : EngState) (hr : EngReach s) :
    s.drainInflight.length ≤ 1 ∧ s.retryInflight.length ≤ 1 ∧
    (inflightTasks s).length ≤ 2 := by
  induction hr with
  | init => simp [inflightTasks]
  | step hprev hstep ih =>
    cases hstep with
    | enqueue batch =>
      simp only [inflightTasks] at ih ⊢
      simpa using ih
    | drainSkip t rest hq hd hk =>
      simp only [inflightTasks] at ih ⊢
      simpa using ih
    | drainStart t rest hq hd hk =>
      simp only [inflightTasks, List.length_append, List.length_map,
        List.length_cons, List.length_nil] at ih ⊢
      omega
    | drainFinishOk t hd =>
      simp only [inflightTasks, List.length_append, List.length_map,
        List.length_cons, List.length_nil] at ih ⊢
      omega
    | drainFinishFail t now hd =>
      simp only [inflightTasks, List.length_append, List.length_map,
        List.length_cons, List.length_nil] at ih ⊢
      omega
    | retryStart k it now hr2 hget hdue =>
      simp only [inflightTasks, List.length_append, List.length_map,
        List.length_cons, List.length_nil] at ih ⊢
      omega
    | retryFinishOk k it hr2 =>
      simp only [inflightTasks, List.length_append, List.length_map,
        List.length_cons, List.length_nil] at ih ⊢
      omega
    | retryFinishFail k it hr2 =>
      simp only [inflightTasks, List.length_append, List.length_map,
        List.length_cons, List.length_nil] at ih ⊢
      omega

theorem inflight_per_path_amended_witness :
    (⟨[], [], [], [], []⟩ : EngState).drainInflight.length ≤ 1 ∧
    (⟨[], [], [], [], []⟩ : EngState).retryInflight.length ≤ 1 ∧
    (inflightTasks ⟨[], [], [], [], []⟩).length ≤ 2 :=
  inflight_per_path_amended ⟨[], [], [], [], []⟩ EngReach.init
